import Mathlib

/-!
Verification of the file-sequence gap detector in `checkfileseq.py`
(`FileSequenceChecker`).  The embedding models file names as `List Char`,
the split patterns as deterministic functions derived from the three
regular expressions in `FileSequenceChecker.SPLITPAT`, the two-pass sort
in `preparedircontents`, and the comparator state machine of
`comparefile` / `processdir`.

Python-specific conventions captured by the embedding:
* `re` patterns are compiled from byte-oriented semantics: `\d` is
  `[0-9]`, `\w` is `[A-Za-z0-9_]` (no `re.UNICODE` flag is set).
* All theorems about the splitter assume newline-free names (Python's
  `.` does not match a newline; the repository only ever feeds it
  file names produced by `os.walk`).
* `int(s, 10)` is modelled on nonempty all-digit strings; any other
  index string raises `ValueError` in `comparefile` (the code re-raises
  it), modelled by `Option`.
-/

namespace CheckFileSeq

/-- File names and name fragments are modelled as lists of characters. -/
abbrev Str := List Char

/-- Python `\d` without `re.UNICODE`: the ASCII digits. -/
def isDigitC (c : Char) : Bool := '0' ≤ c && c ≤ '9'

/-- Python `\w` without `re.UNICODE`: ASCII letters, digits and underscore.
Used for the word-boundary lookahead `(?=\b)` of the second pattern. -/
def isWordC (c : Char) : Bool := c.isAlpha || isDigitC c || c = '_'

/-- Does the string contain a digit?  Models `re.search(ur'\d+', s)`. -/
def hasDigit (s : Str) : Bool := s.any isDigitC

/-- Value of a nonempty all-digit string, base 10. -/
def digitsToNat (s : Str) : Nat :=
  s.foldl (fun n c => 10 * n + (c.toNat - '0'.toNat)) 0

/-- Models Python `int(s, 10)`: defined on nonempty all-digit strings,
`none` models the `ValueError` raised otherwise.  (Python also accepts
signs and surrounding whitespace, but every index string reaching
`int` in this program was captured by `\d+`.) -/
def pyInt (s : Str) : Option Nat :=
  if s ≠ [] && s.all isDigitC then some (digitsToNat s) else none

/-- Decimal digits of a natural number, most significant first. -/
def natDigits (n : Nat) : Str := Nat.toDigits 10 n

/-- Models the format expression `"%0.*d" % (w, i)` of `comparefile` for
the reachable domain `i ≥ 0`: the decimal numeral of `i` zero-padded on
the left to a minimum of `w` digits. -/
def padNum (w : Int) (i : Int) : Str :=
  let ds := natDigits i.toNat
  List.replicate (w.toNat - ds.length) '0' ++ ds

/-- `order` value of a split record: `'normal'` (bare name before the
index) or `'reverse'` (index before the bare name). -/
inductive Order where
  | normal
  | reverse
deriving DecidableEq, Repr

/-- The dictionary returned by `FileSequenceChecker.splitfilename`:
keys `filename`, `seqnum`, `fileext`, `order` and the optional
`filename2`. -/
structure NameRecord where
  filename : Str
  seqnum : Str
  fileext : Str
  order : Order
  filename2 : Option Str
deriving DecidableEq, Repr

/-! ### `os.path.splitext` and the stem/extension preamble -/

/-- Index of the last `'.'` in the string, if any (Python `str.rfind`). -/
def rfindDot : Str → Option Nat
  | [] => none
  | c :: cs =>
    match rfindDot cs with
    | some i => some (i + 1)
    | none => if c = '.' then some 0 else none

/-- Models Python 2 `os.path.splitext` on a bare file name (no path
separators occur: the names come from the file list of `os.walk`):
split at the last dot unless every character before it is a dot
(leading dots of a hidden file are not an extension separator). -/
def pySplitExt (p : Str) : Str × Str :=
  match rfindDot p with
  | none => (p, [])
  | some i =>
    if 0 < i && (p.take i).any (fun c => c ≠ '.') then (p.take i, p.drop i)
    else (p, [])

/-- The stem/extension pair actually handed to the split patterns, after
the preamble of `splitfilename`: an empty stem is replaced by the
extension, and when only the extension holds digits the two parts are
re-joined and the extension cleared. -/
def effParts (name : Str) : Str × Str :=
  let p := pySplitExt name
  let q := if p.1.length = 0 then (p.2, ([] : Str)) else p
  if hasDigit q.1 then q else (q.1 ++ q.2, [])

/-! ### The three default split patterns

Pattern 1 (`reverse`): `^(?=\d)(?P<seqnum>\d+?)(?P<filename>.+)`.
`\d+?` is non-greedy, and `.+` accepts any nonempty remainder, so the
match succeeds exactly on stems of length ≥ 2 whose first character is
a digit, with `seqnum` the single first digit and `filename` all of the
rest.

Pattern 2 (`reverse`): `^(?P<filename2>\D)(?P<seqnum>\d+)(?P<filename>.*?)(?=\b)`.
One non-digit, then the maximal digit run, then the shortest `filename`
ending at a word boundary.  Since the character before the candidate
boundary starts out a digit (a word character), the first boundary sits
at the end of the maximal word-character run following the digits (or
at the end of the stem if it is all word characters), so `filename` is
`takeWhile isWordC` of the remainder — the match may stop before the
end of the stem.

Pattern 3 (`normal`): `(?!\d)(?P<filename>.+?)(?P<seqnum>\d+)(?P<filename2>\D*?)$`.
The stem must not start with a digit; backtracking of the non-greedy
`.+?` against `\d+\D*?$` lands `seqnum` on the last maximal digit run
of the stem, `filename` is everything before it and `filename2` the
(digit-free) remainder after it.
-/

/-- Pattern 1 of `SPLITPAT`, as a function on the stem. -/
def g1 (s : Str) : Option (Str × Str) :=
  match s with
  | c :: d :: rest => if isDigitC c then some ([c], d :: rest) else none
  | _ => none

/-- Pattern 2 of `SPLITPAT`, as a function on the stem.
Returns `(filename2, seqnum, filename)`. -/
def g2 (s : Str) : Option (Str × Str × Str) :=
  match s with
  | [] => none
  | c :: rest =>
    if isDigitC c then none
    else
      let ds := rest.takeWhile isDigitC
      if ds = [] then none
      else
        let tl := rest.drop ds.length
        some ([c], ds, tl.takeWhile isWordC)

/-- Splits a string around its last maximal digit run:
`some (before, run, after)` with `before ++ run ++ after = s`, the run
nonempty and all digits, and `after` digit-free. -/
def lastRunSplit : Str → Option (Str × Str × Str)
  | [] => none
  | c :: cs =>
    match lastRunSplit cs with
    | some ([], r, a) =>
      if isDigitC c then some ([], c :: r, a) else some ([c], r, a)
    | some (b, r, a) => some (c :: b, r, a)
    | none => if isDigitC c then some ([], [c], cs) else none

/-- Pattern 3 of `SPLITPAT`, as a function on the stem.
Returns `(filename, seqnum, filename2)`. -/
def g3 (s : Str) : Option (Str × Str × Str) :=
  match s with
  | [] => none
  | c :: _ =>
    if isDigitC c then none
    else
      match lastRunSplit s with
      | some (b, r, a) => some (b, r, a)
      | none => none

/-- `FileSequenceChecker.splitfilename` with the default pattern list:
the stem/extension preamble followed by the three patterns tried in
order, first match wins (no emptiness check is performed on the
captures in the list branch of the source). -/
def splitfilename (name : Str) : Option NameRecord :=
  let f := (effParts name).1
  let e := (effParts name).2
  if ¬ hasDigit f then none
  else
    match g1 f with
    | some (sq, fn) =>
      some { filename := fn, seqnum := sq, fileext := e,
             order := Order.reverse, filename2 := none }
    | none =>
      match g2 f with
      | some (f2, sq, fn) =>
        some { filename := fn, seqnum := sq, fileext := e,
               order := Order.reverse, filename2 := some f2 }
      | none =>
        match g3 f with
        | some (fn, sq, f2) =>
          some { filename := fn, seqnum := sq, fileext := e,
                 order := Order.normal, filename2 := some f2 }
        | none => none

/-- Concatenation of the name parts of a record in its recorded order,
without the extension (the layout used by `comparefile` both for the
current name and for reconstructed missing names). -/
def reconCore (r : NameRecord) : Str :=
  match r.order with
  | Order.reverse => r.filename2.getD [] ++ r.seqnum ++ r.filename
  | Order.normal => r.filename ++ r.seqnum ++ r.filename2.getD []

/-- Full reconstruction of a file name from a record: the parts in
recorded order followed by the extension. -/
def recon (r : NameRecord) : Str := reconCore r ++ r.fileext

/-! ### The natural sort of `preparedircontents`

`preparedircontents` runs two passes of Python's stable `sorted`:
first with `key=itemgetter('seqnum'), cmp=seqnum_compare` (ascending by
`int(seqnum, 10)`), then with `key=itemgetter('filename'),
cmp=filename_compare` (ascending lexicographically by code point).
A stable sort for a total preorder has a unique result, so Python's
Timsort is modelled by a stable insertion sort. -/

/-- Stable insertion: the new element goes in front of the first
position it is `le`-related to, hence before all equal elements. -/
def insertS (le : α → α → Bool) (x : α) : List α → List α
  | [] => [x]
  | y :: ys => if le x y then x :: y :: ys else y :: insertS le x ys

/-- Stable insertion sort. -/
def isortS (le : α → α → Bool) : List α → List α
  | [] => []
  | x :: xs => insertS le x (isortS le xs)

/-- Integer value of the `seqnum` key as the first sort pass uses it.
Every record reaching the sort came out of a `\d+` capture, so the
key string is a nonempty digit string and `int(x, 10)` never raises
there; `digitsToNat` agrees with it on that domain. -/
def seqVal (r : NameRecord) : Nat := digitsToNat r.seqnum

/-- Three-way code-point comparison of strings, as Python 2 `cmp` on
unicode strings. -/
def cmpStr : Str → Str → Ordering
  | [], [] => Ordering.eq
  | [], _ :: _ => Ordering.lt
  | _ :: _, [] => Ordering.gt
  | a :: as, b :: bs =>
    if a < b then Ordering.lt
    else if b < a then Ordering.gt
    else cmpStr as bs

/-- Comparator of the first sort pass (`seqnum_compare`). -/
def seqLe (x y : NameRecord) : Bool := seqVal x ≤ seqVal y

/-- Comparator of the second sort pass (`filename_compare`). -/
def fnameLe (x y : NameRecord) : Bool := cmpStr x.filename y.filename ≠ Ordering.gt

/-- The two-pass sort of `preparedircontents`: by sequence number, then
(stably) by file name. -/
def preparedSort (l : List NameRecord) : List NameRecord :=
  isortS fnameLe (isortS seqLe l)

/-! ### The comparator state machine (`comparefile` / `processdir`) -/

/-- The `FileSequenceChecker` instance state that the detector reads and
writes: the configured range and the mutable comparance variables plus
the accumulated `missing` report (an insertion-ordered association list
from directory path to the missing names found there). -/
structure Checker where
  start : Option Nat
  end' : Option Nat
  lastfilebarename : Str
  nextseqnum : Int
  seqnumwidth : Int
  missing : List (Str × List Str)
deriving DecidableEq, Repr

/-- A freshly constructed checker (`__init__` with the given range). -/
def freshChecker (s e : Option Nat) : Checker :=
  { start := s, end' := e, lastfilebarename := [], nextseqnum := -1,
    seqnumwidth := -1, missing := [] }

/-- `FileSequenceChecker.reset`: clear the comparance variables. -/
def resetC (c : Checker) : Checker :=
  { c with lastfilebarename := [], nextseqnum := -1, seqnumwidth := -1 }

/-- Append one missing name under a directory key, creating the key at
the end on first use (`self.missing[dir].append(...)`). -/
def appendMissing : List (Str × List Str) → Str → Str → List (Str × List Str)
  | [], d, n => [(d, [n])]
  | (k, v) :: rest, d, n =>
    if k = d then (k, v ++ [n]) :: rest else (k, v) :: appendMissing rest d n

/-- The missing list recorded for a directory (empty if no key). -/
def missingFor (m : List (Str × List Str)) (d : Str) : List Str :=
  ((m.find? (fun p => p.1 = d)).map (fun p => p.2)).getD []

/-- Reconstruction of one missing file name, as built in `comparefile`:
the parts dictionary is rendered with the *current* record's
`filename2`, bare name and extension, the index `i` zero-padded to
`seqnumwidth`, laid out according to the record's order. -/
def renderMissing (order : Order) (f2 bare ext : Str) (w : Int) (i : Int) : Str :=
  match order with
  | Order.reverse => f2 ++ padNum w i ++ bare ++ ext
  | Order.normal => bare ++ padNum w i ++ f2 ++ ext

/-- The `for i in xrange(self.nextseqnum, iseqnum)` loop of
`comparefile`: emit a missing name for each index, breaking as soon as
`end` is set and `i > end`.  `k` is the loop length
`(iseqnum - nextseqnum).toNat`, `i` the running index. -/
def emitLoop (endv : Nat) (dir : Str) (order : Order) (f2 bare ext : Str)
    (w : Int) : Nat → Int → List (Str × List Str) → List (Str × List Str)
  | 0, _, m => m
  | k + 1, i, m =>
    if endv ≠ 0 && i > (endv : Int) then m
    else emitLoop endv dir order f2 bare ext w k (i + 1)
      (appendMissing m dir (renderMissing order f2 bare ext w i))

/-- The `if self.seqnumwidth < 0: self.seqnumwidth = len(seqnum)`
statement of `comparefile`. -/
def setWidth (c : Checker) (sq : Str) : Checker :=
  if c.seqnumwidth < 0 then { c with seqnumwidth := sq.length } else c

/-- `FileSequenceChecker.comparefile`.  Returns the updated instance
state; `none` models the re-raised `ValueError` when the index string
is not an integer.  (The `None`-record early-outs of the source are
unreachable here: `preparedircontents` never stores a `None` record.) -/
def comparefile (c : Checker) (dir : Str) (cur nxt : NameRecord) : Option Checker :=
  let filebarename := cur.filename
  let filename2 := (cur.filename2).getD []
  let seqnum := cur.seqnum
  let fileext := cur.fileext
  let order := cur.order
  let nextfilebarename := nxt.filename
  match pyInt seqnum with
  | none => none
  | some iseq =>
    let startv : Nat := c.start.getD 0
    let endv : Nat := c.end'.getD 0
    if startv ≠ 0 && iseq < startv then some c
    else
      let c1 := setWidth c seqnum
      if c1.lastfilebarename = [] then
        let c2 := { c1 with lastfilebarename := filebarename, nextseqnum := (iseq : Int) + 1 }
        if endv ≠ 0 && c2.nextseqnum > (endv : Int) then some (resetC c2) else some c2
      else if c1.lastfilebarename = filebarename then
        if c1.nextseqnum > 0 && (iseq : Int) ≠ c1.nextseqnum then
          let m := emitLoop endv dir order filename2 filebarename fileext
            c1.seqnumwidth ((iseq - c1.nextseqnum).toNat) c1.nextseqnum c1.missing
          let c3 := { c1 with missing := m }
          if endv ≠ 0 && (iseq : Int) > (endv : Int) then some (resetC c3)
          else
            let c4 := { c3 with nextseqnum := (iseq : Int) + 1 }
            if nextfilebarename ≠ filebarename then some (resetC c4) else some c4
        else
          let c5 := { c1 with nextseqnum := c1.nextseqnum + 1 }
          if nextfilebarename ≠ filebarename then some (resetC c5) else some c5
      else some (resetC c1)

/-- Adjacent pairs of a list. -/
def adjPairs : List α → List (α × α)
  | a :: b :: t => (a, b) :: adjPairs (b :: t)
  | _ => []

/-- The `pairs` generator of `processdir`: adjacent pairs followed by
the circular wrap pair (last, first); a single-element list yields no
pairs at all (`item` stays `None`). -/
def pairsOf (l : List NameRecord) : List (NameRecord × NameRecord) :=
  match l with
  | [] => []
  | [_] => []
  | a :: b :: t => adjPairs (a :: b :: t) ++ [((b :: t).getLastD a, a)]

/-- The pair loop of `processdir` for one directory (`comparefile`
always returns `True`, so the loop never breaks early). -/
def processPairs (c : Checker) (dir : Str) : List (NameRecord × NameRecord) → Option Checker
  | [] => some c
  | (cur, nxt) :: rest =>
    match comparefile c dir cur nxt with
    | some c' => processPairs c' dir rest
    | none => none

/-- Processing of one directory's sorted record list inside
`processdir`'s directory loop. -/
def processOneDir (c : Checker) (dir : Str) (recs : List NameRecord) : Option Checker :=
  processPairs c dir (pairsOf recs)

/-- Fold of `processdir` over the prepared directory contents. -/
def processDirs (c : Checker) : List (Str × List NameRecord) → Option Checker
  | [] => some c
  | (d, recs) :: rest =>
    match processOneDir c d recs with
    | some c' => processDirs c' rest
    | none => none

/-- `FileSequenceChecker.processdir`, taking the prepared directory
contents (the result of the `os.walk` collection) as input and
returning the updated instance together with the returned
`self.missing` report.  No state is cleared on entry. -/
def processdir (c : Checker) (dirs : List (Str × List NameRecord)) :
    Option (Checker × List (Str × List Str)) :=
  (processDirs c dirs).map (fun c' => (c', c'.missing))

/-- Trace of `comparefile` invocations for one directory: the instance
state just before each call, paired with the current record of that
call.  The trace stops early if a call raises. -/
def compareSteps (c : Checker) (dir : Str) :
    List (NameRecord × NameRecord) → List (Checker × NameRecord)
  | [] => []
  | (cur, nxt) :: rest =>
    (c, cur) ::
      match comparefile c dir cur nxt with
      | some c' => compareSteps c' dir rest
      | none => []

/-! ### Index-annotated shadow of the comparator

The rendered strings in the missing report do not determine the loop
index they were rendered from (different parameter choices can render
the same string), so range claims about the *index* behind each
reported name are stated via a shadow of the same state machine whose
only change is that the missing report records, next to each rendered
name, the loop index `i` it was rendered from.  Every definition below
repeats its unannotated counterpart verbatim over this state; the
erasure theorems (`comparefileI_erase`, `processdirI_erase`) prove
that forgetting the indices projects every shadow run onto the
corresponding real run, so the annotation is the annotation of the
real computation. -/

/-- `Checker` with an index-annotated missing report. -/
structure CheckerI where
  start : Option Nat
  end' : Option Nat
  lastfilebarename : Str
  nextseqnum : Int
  seqnumwidth : Int
  missing : List (Str × List (Int × Str))
deriving DecidableEq, Repr

/-- Annotated variant of `freshChecker`. -/
def freshCheckerI (s e : Option Nat) : CheckerI :=
  { start := s, end' := e, lastfilebarename := [], nextseqnum := -1,
    seqnumwidth := -1, missing := [] }

/-- Annotated variant of `resetC`. -/
def resetCI (c : CheckerI) : CheckerI :=
  { c with lastfilebarename := [], nextseqnum := -1, seqnumwidth := -1 }

/-- Annotated variant of `setWidth`. -/
def setWidthI (c : CheckerI) (sq : Str) : CheckerI :=
  if c.seqnumwidth < 0 then { c with seqnumwidth := sq.length } else c

/-- Annotated variant of `appendMissing`: the new entry also carries
its index. -/
def appendMissingI : List (Str × List (Int × Str)) → Str → Int × Str →
    List (Str × List (Int × Str))
  | [], d, n => [(d, [n])]
  | (k, v) :: rest, d, n =>
    if k = d then (k, v ++ [n]) :: rest else (k, v) :: appendMissingI rest d n

/-- Annotated variant of `emitLoop`: records the loop index next to
each rendered name. -/
def emitLoopI (endv : Nat) (dir : Str) (order : Order) (f2 bare ext : Str)
    (w : Int) : Nat → Int → List (Str × List (Int × Str)) →
    List (Str × List (Int × Str))
  | 0, _, m => m
  | k + 1, i, m =>
    if endv ≠ 0 && i > (endv : Int) then m
    else emitLoopI endv dir order f2 bare ext w k (i + 1)
      (appendMissingI m dir (i, renderMissing order f2 bare ext w i))

/-- Annotated variant of `comparefile` (verbatim control flow). -/
def comparefileI (c : CheckerI) (dir : Str) (cur nxt : NameRecord) : Option CheckerI :=
  let filebarename := cur.filename
  let filename2 := (cur.filename2).getD []
  let seqnum := cur.seqnum
  let fileext := cur.fileext
  let order := cur.order
  let nextfilebarename := nxt.filename
  match pyInt seqnum with
  | none => none
  | some iseq =>
    let startv : Nat := c.start.getD 0
    let endv : Nat := c.end'.getD 0
    if startv ≠ 0 && iseq < startv then some c
    else
      let c1 := setWidthI c seqnum
      if c1.lastfilebarename = [] then
        let c2 := { c1 with lastfilebarename := filebarename, nextseqnum := (iseq : Int) + 1 }
        if endv ≠ 0 && c2.nextseqnum > (endv : Int) then some (resetCI c2) else some c2
      else if c1.lastfilebarename = filebarename then
        if c1.nextseqnum > 0 && (iseq : Int) ≠ c1.nextseqnum then
          let m := emitLoopI endv dir order filename2 filebarename fileext
            c1.seqnumwidth ((iseq - c1.nextseqnum).toNat) c1.nextseqnum c1.missing
          let c3 := { c1 with missing := m }
          if endv ≠ 0 && (iseq : Int) > (endv : Int) then some (resetCI c3)
          else
            let c4 := { c3 with nextseqnum := (iseq : Int) + 1 }
            if nextfilebarename ≠ filebarename then some (resetCI c4) else some c4
        else
          let c5 := { c1 with nextseqnum := c1.nextseqnum + 1 }
          if nextfilebarename ≠ filebarename then some (resetCI c5) else some c5
      else some (resetCI c1)

/-- Annotated variant of `processPairs`. -/
def processPairsI (c : CheckerI) (dir : Str) :
    List (NameRecord × NameRecord) → Option CheckerI
  | [] => some c
  | (cur, nxt) :: rest =>
    match comparefileI c dir cur nxt with
    | some c' => processPairsI c' dir rest
    | none => none

/-- Annotated variant of `processOneDir`. -/
def processOneDirI (c : CheckerI) (dir : Str) (recs : List NameRecord) :
    Option CheckerI :=
  processPairsI c dir (pairsOf recs)

/-- Annotated variant of `processDirs`. -/
def processDirsI (c : CheckerI) : List (Str × List NameRecord) → Option CheckerI
  | [] => some c
  | (d, recs) :: rest =>
    match processOneDirI c d recs with
    | some c' => processDirsI c' rest
    | none => none

/-- Annotated variant of `processdir`. -/
def processdirI (c : CheckerI) (dirs : List (Str × List NameRecord)) :
    Option (CheckerI × List (Str × List (Int × Str))) :=
  (processDirsI c dirs).map (fun c' => (c', c'.missing))

/-- Forget the recorded indices of an annotated report. -/
def eraseIdx (m : List (Str × List (Int × Str))) : List (Str × List Str) :=
  m.map (fun p => (p.1, p.2.map Prod.snd))

/-- Forget the recorded indices of an annotated instance state. -/
def eraseC (c : CheckerI) : Checker :=
  { start := c.start, end' := c.end', lastfilebarename := c.lastfilebarename,
    nextseqnum := c.nextseqnum, seqnumwidth := c.seqnumwidth,
    missing := eraseIdx c.missing }

/-! ### Derived predicates used in the statements -/

/-- The order actually guaranteed by `preparedircontents`: file name is
the primary key (nondecreasing), and records with equal file names are
ordered by integer sequence number. -/
def bareLex (a b : NameRecord) : Prop :=
  fnameLe a b = true ∧ (a.filename = b.filename → seqVal a ≤ seqVal b)

/-- The order claimed by the spec for the sorter: integer index is the
primary key, bare name secondary. -/
def idxLex (a b : NameRecord) : Prop :=
  seqVal a < seqVal b ∨ (seqVal a = seqVal b ∧ fnameLe a b = true)

instance : DecidableRel bareLex := fun a b => by unfold bareLex; infer_instance

instance : DecidableRel idxLex := fun a b => by unfold idxLex; infer_instance

/-- Both fields of the composite sort key agree: such records are
indistinguishable to the two sort passes, so a stable sort must keep
their relative order. -/
def keyEq (f : Str) (n : Nat) (r : NameRecord) : Bool :=
  decide (r.filename = f) && decide (seqVal r = n)

/-- Every index recorded in an annotated missing report is at most
`E`. -/
def allIdxLe (E : Nat) (m : List (Str × List (Int × Str))) : Prop :=
  ∀ p ∈ m, ∀ q ∈ p.2, q.1 ≤ (E : Int)

/-- One missing report extends another: per directory, the old list is
an initial segment of the new one. -/
def mExt (m m' : List (Str × List Str)) : Prop :=
  ∀ d, ∃ t, missingFor m d ++ t = missingFor m' d

/-- Record constructor in positional form. -/
def mkNR (b sq e : Str) (ord : Order) (f2 : Option Str) : NameRecord :=
  { filename := b, seqnum := sq, fileext := e, order := ord, filename2 := f2 }

/-- Shorthand record fixture: bare name and index, empty extension,
normal order, empty secondary name. -/
def nrec (b sq : Str) : NameRecord :=
  { filename := b, seqnum := sq, fileext := [], order := Order.normal,
    filename2 := some [] }

end CheckFileSeq

namespace CheckFileSeq

/-! ## Lemmas about the missing report -/

theorem missingFor_nil (d : Str) : missingFor [] d = [] := rfl

theorem missingFor_cons (k : Str) (v : List Str) (m : List (Str × List Str))
    (d : Str) : missingFor ((k, v) :: m) d = if k = d then v else missingFor m d := by
  by_cases h : k = d
  · simp [missingFor, List.find?_cons_of_pos, h]
  · simp only [missingFor, if_neg h]
    rw [List.find?_cons_of_neg]
    simp [h]

theorem missingFor_appendMissing (m : List (Str × List Str)) (dk : Str) (n : Str)
    (d : Str) : missingFor (appendMissing m dk n) d =
      missingFor m d ++ (if dk = d then [n] else []) := by
  induction m with
  | nil =>
    by_cases h : dk = d <;>
      simp [appendMissing, missingFor_cons, missingFor_nil, h]
  | cons p rest ih =>
    obtain ⟨k, v⟩ := p
    by_cases hk : k = dk
    · subst hk
      by_cases hd : k = d <;> simp [appendMissing, missingFor_cons, hd]
    · by_cases hd : k = d
      · subst hd
        have hkd : ¬ dk = k := fun h => hk h.symm
        simp [appendMissing, if_neg hk, missingFor_cons, hkd]
      · simp [appendMissing, if_neg hk, missingFor_cons, hd, ih]

theorem mem_of_mem_missingFor {m : List (Str × List Str)} {d : Str} {n : Str}
    (h : n ∈ missingFor m d) : ∃ p ∈ m, n ∈ p.2 := by
  unfold missingFor at h
  cases hf : m.find? (fun p => p.1 = d) with
  | none => rw [hf] at h; simp at h
  | some p =>
    rw [hf] at h
    exact ⟨p, List.mem_of_find?_eq_some hf, h⟩


/-! ## Claim C10: single-record directories -/

/-- C10: a directory whose sorted record list has exactly one record
yields no pairs from the `pairs` generator (the circular wrap pair is
not generated for a one-element list), so `comparefile` is never
invoked for it and the instance state — including the missing
report — is unchanged. -/
theorem claim10_singleton_no_pairs (c : Checker) (d : Str) (r : NameRecord) :
    pairsOf [r] = [] ∧ processOneDir c d [r] = some c :=
  ⟨rfl, rfl⟩

/-! ## Claim C7: state leaking across directories -/

/-- C7 (code-bug evidence): the comparator state is not reset between
directories of one `processdir` call.  Directory `d1` holds the gapless
run `a1, a2` and `d2` the gapless run `a5, a6`; the run state left by
`d1` (`lastfilebarename = "a"`, `nextseqnum = 3`) leaks into `d2`, so
the report lists the phantom names `a3`, `a4` under `d2`, while
processing `d2` alone from a fresh instance reports nothing. -/
theorem claim7_state_leak_eval :
    (processdir (freshChecker none none)
      [(("d1").toList, [nrec ['a'] ['1'], nrec ['a'] ['2']]),
       (("d2").toList, [nrec ['a'] ['5'], nrec ['a'] ['6']])]).map (fun p => p.2) =
      some [(("d2").toList, [("a3").toList, ("a4").toList])] ∧
    (processdir (freshChecker none none)
      [(("d2").toList, [nrec ['a'] ['5'], nrec ['a'] ['6']])]).map (fun p => p.2) =
      some [] := by decide

/-! ## Claim C8: the reverse-leading pattern -/

/-- C8 counterexample: for the stem `12a` the claim expects the index
to be the maximal leading digit run `12` with bare name `a`, but the
non-greedy `\d+?` of the first pattern captures only the first digit:
the returned index is `1` and the bare name `2a`. -/
theorem claim8_leading_digits_counterexample :
    (splitfilename (("12a.png").toList)).map (fun r => r.seqnum) = some ['1'] ∧
    (['1'] : Str) ≠ ("12").toList := by decide

/-- C8 amended: for every name whose effective stem begins with a digit
and has at least one further character, the splitter matches via the
reverse-leading pattern and returns the *first digit only* as the
index, the rest of the stem (which may itself start with digits) as
the bare name, order Reverse and no secondary name. -/
theorem claim8_leading_digits_amended (name : Str) (c : Char) (cs e : Str)
    (hp : effParts name = (c :: cs, e)) (hc : isDigitC c = true) (hcs : cs ≠ []) :
    splitfilename name =
      some { filename := cs, seqnum := [c], fileext := e,
             order := Order.reverse, filename2 := none } := by
  obtain ⟨d, rest, rfl⟩ : ∃ d rest, cs = d :: rest := by
    cases cs with
    | nil => exact absurd rfl hcs
    | cons d rest => exact ⟨d, rest, rfl⟩
  unfold splitfilename
  rw [hp]
  simp [hasDigit, hc, g1]

/-- Witness for the amended C8 at the name `12a.png`. -/
theorem claim8_witness :
    effParts (("12a.png").toList) = ('1' :: ("2a").toList, (".png").toList) ∧
    isDigitC '1' = true ∧ ("2a").toList ≠ ([] : Str) ∧
    splitfilename (("12a.png").toList) =
      some { filename := ("2a").toList, seqnum := ['1'],
             fileext := (".png").toList, order := Order.reverse,
             filename2 := none } :=
  ⟨by decide, by decide, by decide,
    claim8_leading_digits_amended _ '1' _ _ (by decide) (by decide) (by decide)⟩

/-! ## Claim C2: reconstruction round trip — counterexample -/

/-- C2 counterexample: `v13 Write.png` is accepted by the second
pattern, whose word-boundary lookahead stops the match right after the
digits; the captured parts reconstruct to `v13.png`, not the input. -/
theorem claim2_roundtrip_counterexample :
    (splitfilename (("v13 Write.png").toList)).map recon =
      some (("v13.png").toList) ∧
    ("v13.png").toList ≠ ("v13 Write.png").toList := by decide

/-! ## Claim C3: range end — counterexample -/

/-- C3 counterexample: with `start=0, end=10` configured, the run
`a9, a12` makes `comparefile` loop over indices 10 and 11, breaking
only when `i > end`; index 10 is therefore reported even though the
claim says indices `≥ 10` never appear (the window is inclusive). -/
theorem claim3_range_end_counterexample :
    (processdir (freshChecker (some 0) (some 10))
      [(("d").toList, [nrec ['a'] ['9'], nrec ['a'] ['1', '2']])]).map
      (fun p => missingFor p.2 (("d").toList)) = some [("a10").toList] ∧
    ("a10").toList = renderMissing Order.normal [] ['a'] [] 1 10 := by decide

/-! ## Claim C6: idempotence — counterexample -/

/-- C6 counterexample: `self.missing` is never cleared, so running
`processdir` a second time over the unchanged contents appends the gap
`a2` a second time: the second report differs from the first. -/
theorem claim6_idempotence_counterexample :
    ((processdir (freshChecker none none)
        [(("d").toList, [nrec ['a'] ['1'], nrec ['a'] ['3']])]).bind
      (fun p => (processdir p.1
        [(("d").toList, [nrec ['a'] ['1'], nrec ['a'] ['3']])]).map
        (fun q => (p.2, q.2)))) =
      some ([(("d").toList, [("a2").toList])],
            [(("d").toList, [("a2").toList, ("a2").toList])]) ∧
    [(("d").toList, [("a2").toList])] ≠
      [(("d").toList, [("a2").toList, ("a2").toList])] := by decide

/-! ## Claim C4: the sorter's keys — counterexample -/

/-- C4 counterexample: the second (file name) pass of the stable
two-pass sort makes the bare name the *primary* key.  For the records
`(b, 1)` and `(a, 2)` the sorter outputs `(a, 2), (b, 1)`: the adjacent
output pair violates the claimed index-primary order `idxLex`. -/
theorem claim4_sort_counterexample :
    preparedSort [nrec ['b'] ['1'], nrec ['a'] ['2']] =
      [nrec ['a'] ['2'], nrec ['b'] ['1']] ∧
    ¬ idxLex (nrec ['a'] ['2']) (nrec ['b'] ['1']) := by decide

/-! ## Claim C1: the sparse run 1, 3, 6 -/

/-- C1: for every directory whose sorted record list is the single run
over one bare name with present indices 1, 3, 6 (all of width 1, equal
extension, order and secondary name; no range configured), `processdir`
reports exactly the reconstructed names for indices 2, 4 and 5, in that
order, under that directory. -/
theorem claim1_sparse_run (d b e : Str) (ord : Order) (f2 : Option Str)
    (h : b ≠ []) :
    (processdir (freshChecker none none)
      [(d, [mkNR b ['1'] e ord f2, mkNR b ['3'] e ord f2,
            mkNR b ['6'] e ord f2])]).map (fun p => missingFor p.2 d) =
    some [renderMissing ord (f2.getD []) b e 1 2,
          renderMissing ord (f2.getD []) b e 1 4,
          renderMissing ord (f2.getD []) b e 1 5] := by
  have p1 : pyInt ['1'] = some 1 := by decide
  have p3 : pyInt ['3'] = some 3 := by decide
  have p6 : pyInt ['6'] = some 6 := by decide
  simp [processdir, processDirs, processOneDir, pairsOf, adjPairs, processPairs,
    comparefile, setWidth, p1, p3, p6, h, emitLoop, appendMissing, missingFor_cons,
    freshChecker, resetC, mkNR, List.getLastD]

/-- Witness for C1 at bare name `a`, empty extension. -/
theorem claim1_witness :
    (['a'] : Str) ≠ [] ∧
    (processdir (freshChecker none none)
      [(("d").toList, [mkNR ['a'] ['1'] [] Order.normal (some []),
                       mkNR ['a'] ['3'] [] Order.normal (some []),
                       mkNR ['a'] ['6'] [] Order.normal (some [])])]).map
      (fun p => missingFor p.2 (("d").toList)) =
    some [renderMissing Order.normal [] ['a'] [] 1 2,
          renderMissing Order.normal [] ['a'] [] 1 4,
          renderMissing Order.normal [] ['a'] [] 1 5] :=
  ⟨by decide, claim1_sparse_run (("d").toList) ['a'] [] Order.normal (some [])
    (by decide)⟩

/-! ## Claim C5: zero padding of reconstructed indices -/

/-- C5: in a run whose first seen index string is `001` (width 3) and
which is missing index 2, the reconstructed missing name pads the index
to the recorded width: it renders as `002`, never as `2`. -/
theorem claim5_zero_padding (d b e : Str) (ord : Order) (f2 : Option Str)
    (h : b ≠ []) :
    (processdir (freshChecker none none)
      [(d, [mkNR b (("001").toList) e ord f2,
            mkNR b (("003").toList) e ord f2])]).map
      (fun p => missingFor p.2 d) =
      some [renderMissing ord (f2.getD []) b e 3 2] ∧
    padNum 3 2 = ("002").toList ∧ padNum 3 2 ≠ ['2'] := by
  refine ⟨?_, by decide, by decide⟩
  have p1 : pyInt ['0', '0', '1'] = some 1 := by decide
  have p3 : pyInt ['0', '0', '3'] = some 3 := by decide
  simp [processdir, processDirs, processOneDir, pairsOf, adjPairs, processPairs,
    comparefile, setWidth, p1, p3, h, emitLoop, appendMissing, missingFor_cons,
    freshChecker, resetC, mkNR, List.getLastD]

/-- Witness for C5 at bare name `a`, extension `.png`. -/
theorem claim5_witness :
    (['a'] : Str) ≠ [] ∧
    (processdir (freshChecker none none)
      [(("d").toList, [mkNR ['a'] (("001").toList) ((".png").toList) Order.normal none,
                       mkNR ['a'] (("003").toList) ((".png").toList) Order.normal none])]).map
      (fun p => missingFor p.2 (("d").toList)) =
      some [renderMissing Order.normal [] ['a'] ((".png").toList) 3 2] :=
  ⟨by decide, (claim5_zero_padding (("d").toList) ['a'] ((".png").toList)
    Order.normal none (by decide)).1⟩

/-! ## Structural lemmas about `comparefile` -/

theorem setWidth_start (c : Checker) (sq : Str) : (setWidth c sq).start = c.start := by
  unfold setWidth; split <;> rfl

theorem setWidth_end (c : Checker) (sq : Str) : (setWidth c sq).end' = c.end' := by
  unfold setWidth; split <;> rfl

theorem setWidth_missing (c : Checker) (sq : Str) :
    (setWidth c sq).missing = c.missing := by
  unfold setWidth; split <;> rfl

theorem setWidth_lastname (c : Checker) (sq : Str) :
    (setWidth c sq).lastfilebarename = c.lastfilebarename := by
  unfold setWidth; split <;> rfl

theorem setWidth_nextseqnum (c : Checker) (sq : Str) :
    (setWidth c sq).nextseqnum = c.nextseqnum := by
  unfold setWidth; split <;> rfl

theorem resetC_start (c : Checker) : (resetC c).start = c.start := rfl

theorem resetC_end (c : Checker) : (resetC c).end' = c.end' := rfl

theorem resetC_missing (c : Checker) : (resetC c).missing = c.missing := rfl

/-- Case summary of one `comparefile` step: the configured range is
never written, and the missing report is either untouched or the
result of one `emitLoop` run over the configured end. -/
theorem comparefile_shape {c : Checker} {dir : Str} {cur nxt : NameRecord}
    {c' : Checker} (h : comparefile c dir cur nxt = some c') :
    c'.start = c.start ∧ c'.end' = c.end' ∧
    (c'.missing = c.missing ∨
      ∃ w k i, c'.missing =
        emitLoop (c.end'.getD 0) dir cur.order ((cur.filename2).getD [])
          cur.filename cur.fileext w k i c.missing) := by
  cases hp : pyInt cur.seqnum with
  | none => simp [comparefile, hp] at h
  | some iseq =>
    simp only [comparefile, hp] at h
    split at h
    · cases h
      exact ⟨rfl, rfl, Or.inl rfl⟩
    · split at h
      · split at h <;> cases h <;>
          exact ⟨by simp [resetC_start, setWidth_start],
                 by simp [resetC_end, setWidth_end],
                 Or.inl (by simp [resetC_missing, setWidth_missing])⟩
      · split at h
        · split at h
          · split at h
            · cases h
              exact ⟨by simp [resetC_start, setWidth_start],
                     by simp [resetC_end, setWidth_end],
                     Or.inr ⟨(setWidth c cur.seqnum).seqnumwidth,
                       ((iseq : Int) - (setWidth c cur.seqnum).nextseqnum).toNat,
                       (setWidth c cur.seqnum).nextseqnum,
                       by simp [resetC_missing, setWidth_missing]⟩⟩
            · split at h <;> cases h <;>
                exact ⟨by simp [resetC_start, setWidth_start],
                       by simp [resetC_end, setWidth_end],
                       Or.inr ⟨(setWidth c cur.seqnum).seqnumwidth,
                         ((iseq : Int) - (setWidth c cur.seqnum).nextseqnum).toNat,
                         (setWidth c cur.seqnum).nextseqnum,
                         by simp [resetC_missing, setWidth_missing]⟩⟩
          · split at h <;> cases h <;>
              exact ⟨by simp [resetC_start, setWidth_start],
                     by simp [resetC_end, setWidth_end],
                     Or.inl (by simp [resetC_missing, setWidth_missing])⟩
        · cases h
          exact ⟨by simp [resetC_start, setWidth_start],
                 by simp [resetC_end, setWidth_end],
                 Or.inl (by simp [resetC_missing, setWidth_missing])⟩

/-! ## The missing report only grows -/

theorem mExt_refl (m : List (Str × List Str)) : mExt m m :=
  fun _ => ⟨[], by simp⟩

theorem mExt_trans {a b c : List (Str × List Str)} (h1 : mExt a b)
    (h2 : mExt b c) : mExt a c := by
  intro d
  obtain ⟨t1, e1⟩ := h1 d
  obtain ⟨t2, e2⟩ := h2 d
  exact ⟨t1 ++ t2, by rw [← List.append_assoc, e1, e2]⟩

theorem mExt_appendMissing (m : List (Str × List Str)) (dk : Str) (n : Str) :
    mExt m (appendMissing m dk n) := by
  intro d
  exact ⟨if dk = d then [n] else [], (missingFor_appendMissing m dk n d).symm⟩

theorem mExt_emitLoop (E : Nat) (dir : Str) (ord : Order) (f2 bare ext : Str)
    (w : Int) (k : Nat) (i : Int) (m : List (Str × List Str)) :
    mExt m (emitLoop E dir ord f2 bare ext w k i m) := by
  induction k generalizing i m with
  | zero => exact mExt_refl m
  | succ k ih =>
    unfold emitLoop
    split
    · exact mExt_refl m
    · exact mExt_trans (mExt_appendMissing m dir
        (renderMissing ord f2 bare ext w i)) (ih _ _)

theorem comparefile_mExt {c : Checker} {dir : Str} {cur nxt : NameRecord}
    {c' : Checker} (h : comparefile c dir cur nxt = some c') :
    mExt c.missing c'.missing := by
  rcases (comparefile_shape h).2.2 with he | ⟨w, k, i, he⟩
  · rw [he]; exact mExt_refl _
  · rw [he]; exact mExt_emitLoop _ _ _ _ _ _ _ _ _ _

theorem processPairs_mExt {c : Checker} {dir : Str}
    {ps : List (NameRecord × NameRecord)} {c' : Checker}
    (h : processPairs c dir ps = some c') : mExt c.missing c'.missing := by
  induction ps generalizing c with
  | nil => cases h; exact mExt_refl _
  | cons p rest ih =>
    obtain ⟨cur, nxt⟩ := p
    unfold processPairs at h
    cases hc : comparefile c dir cur nxt with
    | none => rw [hc] at h; simp at h
    | some c1 =>
      rw [hc] at h
      exact mExt_trans (comparefile_mExt hc) (ih h)

theorem processDirs_mExt {c : Checker} {dirs : List (Str × List NameRecord)}
    {c' : Checker} (h : processDirs c dirs = some c') :
    mExt c.missing c'.missing := by
  induction dirs generalizing c with
  | nil => cases h; exact mExt_refl _
  | cons p rest ih =>
    obtain ⟨d, recs⟩ := p
    unfold processDirs at h
    cases hc : processOneDir c d recs with
    | none => rw [hc] at h; simp at h
    | some c1 =>
      rw [hc] at h
      exact mExt_trans (processPairs_mExt hc) (ih h)

theorem processdir_eq {c : Checker} {dirs : List (Str × List NameRecord)}
    {r : Checker × List (Str × List Str)} (h : processdir c dirs = some r) :
    processDirs c dirs = some r.1 ∧ r.2 = r.1.missing := by
  unfold processdir at h
  cases hd : processDirs c dirs with
  | none => rw [hd] at h; simp at h
  | some c1 =>
    rw [hd] at h
    simp only [Option.map_some'] at h
    cases h
    exact ⟨rfl, rfl⟩

/-! ## Claim C6: idempotence — amended -/

/-- C6 amended: `self.missing` persists between calls, so the report of
a second `processdir` call on the same unchanged contents *extends* the
first call's report: per directory, the first list is an initial
segment of the second.  Equality (the original idempotence claim)
fails whenever the second pass emits anything. -/
theorem claim6_idempotence_amended (c : Checker)
    (dirs : List (Str × List NameRecord))
    (r1 r2 : Checker × List (Str × List Str))
    (h1 : processdir c dirs = some r1) (h2 : processdir r1.1 dirs = some r2)
    (d : Str) : ∃ t, missingFor r1.2 d ++ t = missingFor r2.2 d := by
  obtain ⟨hd2, he2⟩ := processdir_eq h2
  obtain ⟨_, he1⟩ := processdir_eq h1
  rw [he1, he2]
  exact processDirs_mExt hd2 d

/-- Witness for the amended C6 at the duplicate-appending input. -/
theorem claim6_witness :
    processdir (freshChecker none none)
      [(("d").toList, [nrec ['a'] ['1'], nrec ['a'] ['3']])] =
      some ({ start := none, end' := none, lastfilebarename := ['a'],
              nextseqnum := 4, seqnumwidth := 1,
              missing := [(("d").toList, [("a2").toList])] },
            [(("d").toList, [("a2").toList])]) ∧
    processdir { start := none, end' := none, lastfilebarename := ['a'],
                 nextseqnum := 4, seqnumwidth := 1,
                 missing := [(("d").toList, [("a2").toList])] }
      [(("d").toList, [nrec ['a'] ['1'], nrec ['a'] ['3']])] =
      some ({ start := none, end' := none, lastfilebarename := ['a'],
              nextseqnum := 4, seqnumwidth := 1,
              missing := [(("d").toList, [("a2").toList, ("a2").toList])] },
            [(("d").toList, [("a2").toList, ("a2").toList])]) ∧
    ∃ t, missingFor [(("d").toList, [("a2").toList])] (("d").toList) ++ t =
      missingFor [(("d").toList, [("a2").toList, ("a2").toList])] (("d").toList) :=
  ⟨by decide, by decide,
    claim6_idempotence_amended (freshChecker none none)
      [(("d").toList, [nrec ['a'] ['1'], nrec ['a'] ['3']])]
      ({ start := none, end' := none, lastfilebarename := ['a'],
         nextseqnum := 4, seqnumwidth := 1,
         missing := [(("d").toList, [("a2").toList])] },
       [(("d").toList, [("a2").toList])])
      ({ start := none, end' := none, lastfilebarename := ['a'],
         nextseqnum := 4, seqnumwidth := 1,
         missing := [(("d").toList, [("a2").toList, ("a2").toList])] },
       [(("d").toList, [("a2").toList, ("a2").toList])])
      (by decide) (by decide) (("d").toList)⟩

/-! ## Erasure: the annotated machine projects onto the real one -/

theorem eraseC_start (c : CheckerI) : (eraseC c).start = c.start := rfl

theorem eraseC_end (c : CheckerI) : (eraseC c).end' = c.end' := rfl

theorem eraseC_lastname (c : CheckerI) :
    (eraseC c).lastfilebarename = c.lastfilebarename := rfl

theorem eraseC_nextseqnum (c : CheckerI) :
    (eraseC c).nextseqnum = c.nextseqnum := rfl

theorem eraseC_seqnumwidth (c : CheckerI) :
    (eraseC c).seqnumwidth = c.seqnumwidth := rfl

theorem eraseC_missing (c : CheckerI) :
    (eraseC c).missing = eraseIdx c.missing := rfl

theorem setWidthI_start (c : CheckerI) (sq : Str) :
    (setWidthI c sq).start = c.start := by
  unfold setWidthI; split <;> rfl

theorem setWidthI_end (c : CheckerI) (sq : Str) :
    (setWidthI c sq).end' = c.end' := by
  unfold setWidthI; split <;> rfl

theorem setWidthI_missing (c : CheckerI) (sq : Str) :
    (setWidthI c sq).missing = c.missing := by
  unfold setWidthI; split <;> rfl

theorem setWidthI_lastname (c : CheckerI) (sq : Str) :
    (setWidthI c sq).lastfilebarename = c.lastfilebarename := by
  unfold setWidthI; split <;> rfl

theorem setWidthI_nextseqnum (c : CheckerI) (sq : Str) :
    (setWidthI c sq).nextseqnum = c.nextseqnum := by
  unfold setWidthI; split <;> rfl

theorem resetCI_start (c : CheckerI) : (resetCI c).start = c.start := rfl

theorem resetCI_end (c : CheckerI) : (resetCI c).end' = c.end' := rfl

theorem resetCI_missing (c : CheckerI) : (resetCI c).missing = c.missing := rfl

theorem eraseIdx_appendMissingI (m : List (Str × List (Int × Str)))
    (d : Str) (i : Int) (n : Str) :
    eraseIdx (appendMissingI m d (i, n)) = appendMissing (eraseIdx m) d n := by
  induction m with
  | nil => simp [appendMissingI, appendMissing, eraseIdx]
  | cons p rest ih =>
    obtain ⟨k, v⟩ := p
    by_cases hk : k = d
    · simp [appendMissingI, appendMissing, eraseIdx, hk]
    · simp only [appendMissingI, appendMissing, eraseIdx, if_neg hk,
        List.map_cons]
      simp only [eraseIdx] at ih
      rw [ih]

theorem eraseIdx_emitLoopI (E : Nat) (dir : Str) (ord : Order)
    (f2 bare ext : Str) (w : Int) (k : Nat) (i : Int)
    (m : List (Str × List (Int × Str))) :
    eraseIdx (emitLoopI E dir ord f2 bare ext w k i m) =
      emitLoop E dir ord f2 bare ext w k i (eraseIdx m) := by
  induction k generalizing i m with
  | zero => rfl
  | succ k ih =>
    unfold emitLoopI emitLoop
    split
    · rfl
    · rw [ih, eraseIdx_appendMissingI]

theorem setWidth_eraseC (c : CheckerI) (sq : Str) :
    setWidth (eraseC c) sq = eraseC (setWidthI c sq) := by
  unfold setWidth setWidthI
  by_cases h : c.seqnumwidth < 0
  · rw [if_pos (show (eraseC c).seqnumwidth < 0 from h), if_pos h]
    rfl
  · rw [if_neg (show ¬ (eraseC c).seqnumwidth < 0 from h), if_neg h]

theorem resetC_eraseC (c : CheckerI) :
    resetC (eraseC c) = eraseC (resetCI c) := rfl

/-- Erasing the indices commutes with one `comparefile` step: the
shadow machine takes exactly the branches the real machine takes. -/
theorem comparefileI_erase (c : CheckerI) (dir : Str) (cur nxt : NameRecord) :
    comparefile (eraseC c) dir cur nxt = (comparefileI c dir cur nxt).map eraseC := by
  cases hp : pyInt cur.seqnum with
  | none => simp [comparefile, comparefileI, hp]
  | some iseq =>
    simp only [comparefile, comparefileI, hp]
    simp only [eraseC_start, eraseC_end, setWidth_eraseC, eraseC_lastname,
      eraseC_nextseqnum, eraseC_seqnumwidth, eraseC_missing]
    split
    · rfl
    · split
      · split <;> simp [eraseC, resetC, resetCI]
      · split
        · split
          · split
            · simp [eraseC, resetC, resetCI, eraseIdx_emitLoopI]
            · split <;> simp [eraseC, resetC, resetCI, eraseIdx_emitLoopI]
          · split <;> simp [eraseC, resetC, resetCI]
        · simp [eraseC, resetC, resetCI]

theorem processPairsI_erase (c : CheckerI) (dir : Str)
    (ps : List (NameRecord × NameRecord)) :
    processPairs (eraseC c) dir ps = (processPairsI c dir ps).map eraseC := by
  induction ps generalizing c with
  | nil => rfl
  | cons p rest ih =>
    obtain ⟨cur, nxt⟩ := p
    unfold processPairs processPairsI
    rw [comparefileI_erase]
    cases hc : comparefileI c dir cur nxt with
    | none => simp
    | some c1 => simpa using ih c1

theorem processOneDirI_erase (c : CheckerI) (d : Str) (recs : List NameRecord) :
    processOneDir (eraseC c) d recs = (processOneDirI c d recs).map eraseC :=
  processPairsI_erase c d (pairsOf recs)

theorem processDirsI_erase (c : CheckerI) (dirs : List (Str × List NameRecord)) :
    processDirs (eraseC c) dirs = (processDirsI c dirs).map eraseC := by
  induction dirs generalizing c with
  | nil => rfl
  | cons p rest ih =>
    obtain ⟨d, recs⟩ := p
    unfold processDirs processDirsI
    rw [processOneDirI_erase]
    cases hc : processOneDirI c d recs with
    | none => simp
    | some c1 => simpa using ih c1

theorem processdirI_erase (c : CheckerI) (dirs : List (Str × List NameRecord)) :
    processdir (eraseC c) dirs =
      (processdirI c dirs).map (fun p => (eraseC p.1, eraseIdx p.2)) := by
  unfold processdir processdirI
  rw [processDirsI_erase]
  cases processDirsI c dirs <;> simp [eraseC_missing]

/-! ## Every recorded index respects the configured end -/

/-- Case summary of one annotated step (mirror of `comparefile_shape`). -/
theorem comparefileI_shape {c : CheckerI} {dir : Str} {cur nxt : NameRecord}
    {c' : CheckerI} (h : comparefileI c dir cur nxt = some c') :
    c'.start = c.start ∧ c'.end' = c.end' ∧
    (c'.missing = c.missing ∨
      ∃ w k i, c'.missing =
        emitLoopI (c.end'.getD 0) dir cur.order ((cur.filename2).getD [])
          cur.filename cur.fileext w k i c.missing) := by
  cases hp : pyInt cur.seqnum with
  | none => simp [comparefileI, hp] at h
  | some iseq =>
    simp only [comparefileI, hp] at h
    split at h
    · cases h
      exact ⟨rfl, rfl, Or.inl rfl⟩
    · split at h
      · split at h <;> cases h <;>
          exact ⟨by simp [resetCI_start, setWidthI_start],
                 by simp [resetCI_end, setWidthI_end],
                 Or.inl (by simp [resetCI_missing, setWidthI_missing])⟩
      · split at h
        · split at h
          · split at h
            · cases h
              exact ⟨by simp [resetCI_start, setWidthI_start],
                     by simp [resetCI_end, setWidthI_end],
                     Or.inr ⟨(setWidthI c cur.seqnum).seqnumwidth,
                       ((iseq : Int) - (setWidthI c cur.seqnum).nextseqnum).toNat,
                       (setWidthI c cur.seqnum).nextseqnum,
                       by simp [resetCI_missing, setWidthI_missing]⟩⟩
            · split at h <;> cases h <;>
                exact ⟨by simp [resetCI_start, setWidthI_start],
                       by simp [resetCI_end, setWidthI_end],
                       Or.inr ⟨(setWidthI c cur.seqnum).seqnumwidth,
                         ((iseq : Int) - (setWidthI c cur.seqnum).nextseqnum).toNat,
                         (setWidthI c cur.seqnum).nextseqnum,
                         by simp [resetCI_missing, setWidthI_missing]⟩⟩
          · split at h <;> cases h <;>
              exact ⟨by simp [resetCI_start, setWidthI_start],
                     by simp [resetCI_end, setWidthI_end],
                     Or.inl (by simp [resetCI_missing, setWidthI_missing])⟩
        · cases h
          exact ⟨by simp [resetCI_start, setWidthI_start],
                 by simp [resetCI_end, setWidthI_end],
                 Or.inl (by simp [resetCI_missing, setWidthI_missing])⟩

theorem allIdxLe_appendMissingI {E : Nat} {m : List (Str × List (Int × Str))}
    (dk : Str) {i : Int} {n : Str} (h : allIdxLe E m) (hi : i ≤ (E : Int)) :
    allIdxLe E (appendMissingI m dk (i, n)) := by
  induction m with
  | nil =>
    intro p hp q hq
    simp only [appendMissingI, List.mem_singleton] at hp
    subst hp
    simp only [List.mem_singleton] at hq
    subst hq
    exact hi
  | cons t rest ih =>
    intro p hp q hq
    obtain ⟨k, v⟩ := t
    unfold appendMissingI at hp
    by_cases hk : k = dk
    · rw [if_pos hk] at hp
      rcases List.mem_cons.mp hp with hp | hp
      · subst hp
        rcases List.mem_append.mp hq with hv | hqq
        · exact h (k, v) (List.mem_cons_self _ _) q hv
        · rw [List.mem_singleton.mp hqq]
          exact hi
      · exact h p (List.mem_cons_of_mem _ hp) q hq
    · rw [if_neg hk] at hp
      rcases List.mem_cons.mp hp with hp | hp
      · subst hp
        exact h (k, v) (List.mem_cons_self _ _) q hq
      · exact ih (fun t2 ht nn hnn => h t2 (List.mem_cons_of_mem _ ht) nn hnn) p hp q hq

theorem allIdxLe_emitLoopI {E : Nat} (hE : E ≠ 0) (dir : Str) (ord : Order)
    (f2 bare ext : Str) (w : Int) (k : Nat) (i : Int)
    {m : List (Str × List (Int × Str))} (h : allIdxLe E m) :
    allIdxLe E (emitLoopI E dir ord f2 bare ext w k i m) := by
  induction k generalizing i m with
  | zero => exact h
  | succ k ih =>
    unfold emitLoopI
    split
    · exact h
    · rename_i hc
      have hle : i ≤ (E : Int) := by
        by_contra hgt
        exact hc (by simp [hE]; omega)
      exact ih _ (allIdxLe_appendMissingI dir h hle)

theorem comparefileI_allIdxLe {c c' : CheckerI} {dir : Str}
    {cur nxt : NameRecord} {E : Nat} (hE : c.end' = some E) (hE0 : E ≠ 0)
    (h : comparefileI c dir cur nxt = some c')
    (hm : allIdxLe E c.missing) : allIdxLe E c'.missing := by
  rcases (comparefileI_shape h).2.2 with he | ⟨w, k, i, he⟩
  · rw [he]; exact hm
  · rw [he, hE]
    exact allIdxLe_emitLoopI hE0 _ _ _ _ _ _ _ _ hm

theorem processPairsI_allIdxLe {c c' : CheckerI} {dir : Str}
    {ps : List (NameRecord × NameRecord)} {E : Nat} (hE : c.end' = some E)
    (hE0 : E ≠ 0) (h : processPairsI c dir ps = some c')
    (hm : allIdxLe E c.missing) :
    allIdxLe E c'.missing ∧ c'.end' = some E := by
  induction ps generalizing c with
  | nil => cases h; exact ⟨hm, hE⟩
  | cons p rest ih =>
    obtain ⟨cur, nxt⟩ := p
    unfold processPairsI at h
    cases hc : comparefileI c dir cur nxt with
    | none => rw [hc] at h; simp at h
    | some c1 =>
      rw [hc] at h
      have hE1 : c1.end' = some E := by
        rw [(comparefileI_shape hc).2.1, hE]
      exact ih hE1 h (comparefileI_allIdxLe hE hE0 hc hm)

theorem processDirsI_allIdxLe {c c' : CheckerI}
    {dirs : List (Str × List NameRecord)} {E : Nat} (hE : c.end' = some E)
    (hE0 : E ≠ 0) (h : processDirsI c dirs = some c')
    (hm : allIdxLe E c.missing) :
    allIdxLe E c'.missing ∧ c'.end' = some E := by
  induction dirs generalizing c with
  | nil => cases h; exact ⟨hm, hE⟩
  | cons p rest ih =>
    obtain ⟨d, recs⟩ := p
    unfold processDirsI at h
    cases hc : processOneDirI c d recs with
    | none => rw [hc] at h; simp at h
    | some c1 =>
      obtain ⟨h1, h2⟩ := processPairsI_allIdxLe hE hE0 hc hm
      rw [hc] at h
      exact ih h2 h h1

theorem processdirI_eq {c : CheckerI} {dirs : List (Str × List NameRecord)}
    {r : CheckerI × List (Str × List (Int × Str))}
    (h : processdirI c dirs = some r) :
    processDirsI c dirs = some r.1 ∧ r.2 = r.1.missing := by
  unfold processdirI at h
  cases hd : processDirsI c dirs with
  | none => rw [hd] at h; simp at h
  | some c1 =>
    rw [hd] at h
    simp only [Option.map_some'] at h
    cases h
    exact ⟨rfl, rfl⟩

/-! ## Claim C3: range end — amended -/

/-- C3 amended: with `start=0, end=10` configured, no missing index
*strictly greater* than 10 ever appears: the index-annotated run of the
same machine on the same input succeeds, its report erases to exactly
the report `processdir` returned (so its annotation is the annotation
of the real run), and every index it records is at most 10.  The window
is inclusive at the end (the emission loop only breaks once `i > end`,
so index 10 itself is reportable, as the counterexample shows). -/
theorem claim3_range_end_amended (dirs : List (Str × List NameRecord))
    (r : Checker × List (Str × List Str))
    (h : processdir (freshChecker (some 0) (some 10)) dirs = some r) :
    ∃ rI, processdirI (freshCheckerI (some 0) (some 10)) dirs = some rI ∧
      eraseIdx rI.2 = r.2 ∧ allIdxLe 10 rI.2 := by
  have hproj := processdirI_erase (freshCheckerI (some 0) (some 10)) dirs
  have hfresh : eraseC (freshCheckerI (some 0) (some 10)) =
      freshChecker (some 0) (some 10) := rfl
  rw [hfresh] at hproj
  rw [hproj] at h
  cases hI : processdirI (freshCheckerI (some 0) (some 10)) dirs with
  | none => rw [hI] at h; simp at h
  | some rI =>
    rw [hI] at h
    simp only [Option.map_some'] at h
    cases h
    obtain ⟨hd, he⟩ := processdirI_eq hI
    refine ⟨rI, rfl, rfl, ?_⟩
    rw [he]
    exact (processDirsI_allIdxLe rfl (by decide) hd
      (fun p hp => absurd hp (List.not_mem_nil p))).1

/-- Witness for the amended C3 at the run `a9, a12`. -/
theorem claim3_witness :
    processdir (freshChecker (some 0) (some 10))
      [(("d").toList, [nrec ['a'] ['9'], nrec ['a'] ['1', '2']])] =
      some ({ start := some 0, end' := some 10, lastfilebarename := [],
              nextseqnum := -1, seqnumwidth := -1,
              missing := [(("d").toList, [("a10").toList])] },
            [(("d").toList, [("a10").toList])]) ∧
    ∃ rI, processdirI (freshCheckerI (some 0) (some 10))
        [(("d").toList, [nrec ['a'] ['9'], nrec ['a'] ['1', '2']])] = some rI ∧
      eraseIdx rI.2 = [(("d").toList, [("a10").toList])] ∧ allIdxLe 10 rI.2 :=
  ⟨by decide,
    claim3_range_end_amended
      [(("d").toList, [nrec ['a'] ['9'], nrec ['a'] ['1', '2']])]
      ({ start := some 0, end' := some 10, lastfilebarename := [],
         nextseqnum := -1, seqnumwidth := -1,
         missing := [(("d").toList, [("a10").toList])] },
       [(("d").toList, [("a10").toList])])
      (by decide)⟩

/-! ## Span lemmas for the splitter -/

theorem takeWhile_append_drop (p : Char → Bool) (l : Str) :
    l.takeWhile p ++ l.drop (l.takeWhile p).length = l := by
  induction l with
  | nil => rfl
  | cons c cs ih =>
    by_cases hc : p c
    · simp [List.takeWhile_cons, hc, ih]
    · simp [List.takeWhile_cons, hc]

theorem pySplitExt_append (p : Str) :
    (pySplitExt p).1 ++ (pySplitExt p).2 = p := by
  unfold pySplitExt
  cases h : rfindDot p with
  | none => simp
  | some i =>
    dsimp only
    split
    · exact List.take_append_drop i p
    · simp

theorem effParts_append (name : Str) :
    (effParts name).1 ++ (effParts name).2 = name := by
  have hp := pySplitExt_append name
  unfold effParts
  dsimp only
  by_cases h0 : (pySplitExt name).1.length = 0
  · have h1 : (pySplitExt name).1 = [] := List.length_eq_zero.mp h0
    rw [h1] at hp
    rw [if_pos h0]
    by_cases hd : hasDigit (pySplitExt name).2 = true
    · rw [if_pos hd]
      simpa using hp
    · rw [if_neg hd]
      simpa using hp
  · rw [if_neg h0]
    by_cases hd : hasDigit (pySplitExt name).1 = true
    · rw [if_pos hd]
      exact hp
    · rw [if_neg hd]
      simpa using hp

theorem g1_span {s sq fn : Str} (h : g1 s = some (sq, fn)) : sq ++ fn = s := by
  match s with
  | [] => simp [g1] at h
  | [c] => simp [g1] at h
  | c :: d :: rest =>
    simp only [g1] at h
    split at h
    · cases h
      rfl
    · cases h

theorem g2_span {s f2 sq fn : Str} (h : g2 s = some (f2, sq, fn)) :
    ∃ rest, f2 ++ sq ++ fn ++ rest = s := by
  match s with
  | [] => simp [g2] at h
  | c :: tl =>
    simp only [g2] at h
    split at h
    · cases h
    · split at h
      · cases h
      · cases h
        refine ⟨(tl.drop (tl.takeWhile isDigitC).length).drop
          ((tl.drop (tl.takeWhile isDigitC).length).takeWhile isWordC).length, ?_⟩
        have h1 := takeWhile_append_drop isWordC (tl.drop (tl.takeWhile isDigitC).length)
        have h2 := takeWhile_append_drop isDigitC tl
        simp only [List.cons_append, List.append_assoc]
        rw [h1, h2]
        simp

theorem lastRunSplit_append {s b r a : Str} (h : lastRunSplit s = some (b, r, a)) :
    b ++ r ++ a = s := by
  induction s generalizing b r a with
  | nil => simp [lastRunSplit] at h
  | cons c cs ih =>
    unfold lastRunSplit at h
    cases h' : lastRunSplit cs with
    | none =>
      rw [h'] at h
      dsimp only at h
      split at h
      · cases h
        rfl
      · cases h
    | some t =>
      obtain ⟨b', r', a'⟩ := t
      rw [h'] at h
      have hsp := ih h'
      cases b' with
      | nil =>
        dsimp only at h
        split at h
        · cases h
          simpa using hsp
        · cases h
          simpa using hsp
      | cons x xs =>
        dsimp only at h
        cases h
        simpa using hsp

theorem g3_span {s fn sq f2 : Str} (h : g3 s = some (fn, sq, f2)) :
    fn ++ sq ++ f2 = s := by
  match s with
  | [] => simp [g3] at h
  | c :: cs =>
    simp only [g3] at h
    split at h
    · cases h
    · cases hs : lastRunSplit (c :: cs) with
      | none => rw [hs] at h; cases h
      | some t =>
        obtain ⟨b', r', a'⟩ := t
        rw [hs] at h
        cases h
        exact lastRunSplit_append hs

/-! ## Claim C2: reconstruction round trip — amended -/

/-- C2 amended: for every name accepted by a default grammar, the
reconstruction (parts concatenated in recorded order plus extension)
equals the consumed prefix of the effective stem plus the extension,
and it reproduces the input *exactly* whenever the match spans the
whole stem.  The per-grammar conjuncts make the split explicit:
* if the reverse-leading grammar (1st) matches the stem, the
  reconstruction equals the input name exactly;
* if the reverse-with-prefix-char grammar (2nd) does not match (so the
  record came from the 1st or the normal 3rd grammar), the
  reconstruction equals the input name exactly;
* if the record came from the 2nd grammar, the reconstruction is
  exactly the consumed parts `filename2 ++ seqnum ++ filename` plus the
  extension — the match may have stopped at an internal word boundary,
  dropping the unconsumed tail of the stem. -/
theorem claim2_roundtrip_amended (name : Str) (r : NameRecord)
    (h : splitfilename name = some r) :
    r.fileext = (effParts name).2 ∧
    (∃ rest, reconCore r ++ rest = (effParts name).1) ∧
    (reconCore r = (effParts name).1 → recon r = name) ∧
    ((g1 (effParts name).1).isSome = true → recon r = name) ∧
    (g2 (effParts name).1 = none → recon r = name) ∧
    (∀ f2 sq fn, g1 (effParts name).1 = none →
      g2 (effParts name).1 = some (f2, sq, fn) →
      recon r = f2 ++ sq ++ fn ++ (effParts name).2) := by
  have happ := effParts_append name
  unfold splitfilename at h
  dsimp only at h
  split at h
  · cases h
  · cases hg1 : g1 (effParts name).1 with
    | some t =>
      obtain ⟨sq, fn⟩ := t
      rw [hg1] at h
      dsimp only at h
      cases h
      have hspan := g1_span hg1
      have hcore : reconCore
          { filename := fn, seqnum := sq, fileext := (effParts name).2,
            order := Order.reverse, filename2 := none } =
          (effParts name).1 := by
        simpa [reconCore] using hspan
      refine ⟨rfl, ⟨[], by rw [List.append_nil]; exact hcore⟩,
        fun _ => by unfold recon; rw [hcore]; exact happ,
        fun _ => by unfold recon; rw [hcore]; exact happ,
        fun _ => by unfold recon; rw [hcore]; exact happ, ?_⟩
      intro f2' sq' fn' hg1'
      cases hg1'
    | none =>
      rw [hg1] at h
      dsimp only at h
      cases hg2 : g2 (effParts name).1 with
      | some t =>
        obtain ⟨f2, sq, fn⟩ := t
        rw [hg2] at h
        dsimp only at h
        cases h
        obtain ⟨rest, hspan⟩ := g2_span hg2
        refine ⟨rfl, ⟨rest, ?_⟩,
          fun hc => by unfold recon; rw [hc]; exact happ, ?_, ?_, ?_⟩
        · simpa [reconCore, List.append_assoc] using hspan
        · intro hs
          simp at hs
        · intro hn
          cases hn
        · intro f2' sq' fn' _ heq
          cases heq
          simp [recon, reconCore]
      | none =>
        rw [hg2] at h
        dsimp only at h
        cases hg3 : g3 (effParts name).1 with
        | none => rw [hg3] at h; cases h
        | some t =>
          obtain ⟨fn, sq, f2⟩ := t
          rw [hg3] at h
          dsimp only at h
          cases h
          have hspan := g3_span hg3
          have hcore : reconCore
              { filename := fn, seqnum := sq, fileext := (effParts name).2,
                order := Order.normal, filename2 := some f2 } =
              (effParts name).1 := by
            simpa [reconCore] using hspan
          refine ⟨rfl, ⟨[], by rw [List.append_nil]; exact hcore⟩,
            fun _ => by unfold recon; rw [hcore]; exact happ,
            fun _ => by unfold recon; rw [hcore]; exact happ,
            fun _ => by unfold recon; rw [hcore]; exact happ, ?_⟩
          intro f2' sq' fn' _ heq
          cases heq

/-- Witness for the amended C2, exercised twice: at `v002_Write.png`
(accepted by the second grammar with a full-stem match) and at
`Name20.01.png` (accepted by the third, normal grammar, so the
`g2 = none` conjunct applies). -/
theorem claim2_witness :
    splitfilename (("v002_Write.png").toList) =
      some { filename := ("_Write").toList, seqnum := ("002").toList,
             fileext := (".png").toList, order := Order.reverse,
             filename2 := some ['v'] } ∧
    recon { filename := ("_Write").toList, seqnum := ("002").toList,
            fileext := (".png").toList, order := Order.reverse,
            filename2 := some ['v'] } = ("v002_Write.png").toList ∧
    splitfilename (("Name20.01.png").toList) =
      some { filename := ("Name20.").toList, seqnum := ("01").toList,
             fileext := (".png").toList, order := Order.normal,
             filename2 := some [] } ∧
    recon { filename := ("Name20.").toList, seqnum := ("01").toList,
            fileext := (".png").toList, order := Order.normal,
            filename2 := some [] } = ("Name20.01.png").toList :=
  ⟨by decide,
    (claim2_roundtrip_amended (("v002_Write.png").toList)
      { filename := ("_Write").toList, seqnum := ("002").toList,
        fileext := (".png").toList, order := Order.reverse,
        filename2 := some ['v'] }
      (by decide)).2.2.1 (by decide),
   by decide,
    (claim2_roundtrip_amended (("Name20.01.png").toList)
      { filename := ("Name20.").toList, seqnum := ("01").toList,
        fileext := (".png").toList, order := Order.normal,
        filename2 := some [] }
      (by decide)).2.2.2.2.1 (by decide)⟩

/-! ## Lemmas about the stable two-pass sort -/

theorem mem_insertS (le : α → α → Bool) (x : α) (l : List α) (a : α) :
    a ∈ insertS le x l ↔ a = x ∨ a ∈ l := by
  induction l with
  | nil => simp [insertS]
  | cons y ys ih =>
    unfold insertS
    split
    · simp [List.mem_cons]
    · simp only [List.mem_cons, ih]
      tauto

theorem pairwise_insertS (le : α → α → Bool)
    (htot : ∀ a b, le a b = true ∨ le b a = true)
    (htr : ∀ a b c, le a b = true → le b c = true → le a c = true)
    (x : α) (l : List α) (h : l.Pairwise (fun a b => le a b = true)) :
    (insertS le x l).Pairwise (fun a b => le a b = true) := by
  induction l with
  | nil => simp [insertS]
  | cons y ys ih =>
    rcases List.pairwise_cons.mp h with ⟨hy, hys⟩
    unfold insertS
    split
    · rename_i hxy
      refine List.pairwise_cons.mpr ⟨?_, h⟩
      intro b hb
      rcases List.mem_cons.mp hb with rfl | hb
      · exact hxy
      · exact htr x y b hxy (hy b hb)
    · rename_i hxy
      have hyx : le y x = true := by
        rcases htot x y with hh | hh
        · exact absurd hh hxy
        · exact hh
      refine List.pairwise_cons.mpr ⟨?_, ih hys⟩
      intro b hb
      rcases (mem_insertS le x ys b).mp hb with rfl | hb
      · exact hyx
      · exact hy b hb

theorem pairwise_isortS (le : α → α → Bool)
    (htot : ∀ a b, le a b = true ∨ le b a = true)
    (htr : ∀ a b c, le a b = true → le b c = true → le a c = true)
    (l : List α) : (isortS le l).Pairwise (fun a b => le a b = true) := by
  induction l with
  | nil => simp [isortS]
  | cons x xs ih => exact pairwise_insertS le htot htr x _ ih

theorem filter_insertS_neg (le : α → α → Bool) (p : α → Bool) (x : α)
    (l : List α) (hx : p x = false) :
    (insertS le x l).filter p = l.filter p := by
  induction l with
  | nil => simp [insertS, hx]
  | cons y ys ih =>
    unfold insertS
    split
    · simp [List.filter_cons, hx]
    · by_cases hy : p y = true <;> simp [List.filter_cons, hy, ih]

theorem filter_insertS_pos (le : α → α → Bool) (p : α → Bool) (x : α)
    (l : List α) (hx : p x = true)
    (h : ∀ y ∈ l, p y = true → le x y = true) :
    (insertS le x l).filter p = x :: l.filter p := by
  induction l with
  | nil => simp [insertS, hx]
  | cons y ys ih =>
    unfold insertS
    split
    · simp [List.filter_cons, hx]
    · rename_i hxy
      have hpy : p y = false := by
        cases hpy2 : p y
        · rfl
        · exact absurd (h y (List.mem_cons_self y ys) hpy2) hxy
      simp only [List.filter_cons, hpy, if_neg]
      simp only [Bool.false_eq_true, if_false]
      exact ih (fun z hz hpz => h z (List.mem_cons_of_mem _ hz) hpz)

theorem filter_isortS (le : α → α → Bool) (p : α → Bool)
    (hcl : ∀ a b, p a = true → p b = true → le a b = true) (l : List α) :
    (isortS le l).filter p = l.filter p := by
  induction l with
  | nil => rfl
  | cons x xs ih =>
    unfold isortS
    cases hx : p x with
    | true =>
      rw [filter_insertS_pos le p x _ hx (fun y _ hpy => hcl x y hx hpy)]
      simp [List.filter_cons, hx, ih]
    | false =>
      rw [filter_insertS_neg le p x _ hx]
      simp [List.filter_cons, hx, ih]

/-! ## Lemmas about the string comparison -/

theorem cmpStr_self (s : Str) : cmpStr s s = Ordering.eq := by
  induction s with
  | nil => rfl
  | cons c cs ih => simp [cmpStr, ih]

theorem cmpStr_eq {x y : Str} (h : cmpStr x y = Ordering.eq) : x = y := by
  induction x generalizing y with
  | nil =>
    cases y with
    | nil => rfl
    | cons d ds => simp [cmpStr] at h
  | cons c cs ih =>
    cases y with
    | nil => simp [cmpStr] at h
    | cons d ds =>
      unfold cmpStr at h
      by_cases h1 : c < d
      · rw [if_pos h1] at h
        cases h
      · rw [if_neg h1] at h
        by_cases h2 : d < c
        · rw [if_pos h2] at h
          cases h
        · rw [if_neg h2] at h
          have hcd : c = d := le_antisymm (not_lt.mp h2) (not_lt.mp h1)
          rw [hcd, ih h]

theorem cmpStr_swap (x y : Str) : cmpStr x y = (cmpStr y x).swap := by
  induction x generalizing y with
  | nil => cases y <;> rfl
  | cons c cs ih =>
    cases y with
    | nil => rfl
    | cons d ds =>
      unfold cmpStr
      by_cases h1 : c < d
      · have h2 : ¬ d < c := lt_asymm h1
        simp [h1, h2, Ordering.swap]
      · by_cases h2 : d < c
        · simp [h1, h2, Ordering.swap]
        · simp [h1, h2, ih ds]

theorem cmpStr_lt_trans {x y z : Str} (h1 : cmpStr x y = Ordering.lt)
    (h2 : cmpStr y z = Ordering.lt) : cmpStr x z = Ordering.lt := by
  induction x generalizing y z with
  | nil =>
    cases y with
    | nil => simp [cmpStr] at h1
    | cons d ds =>
      cases z with
      | nil => simp [cmpStr] at h2
      | cons e es => rfl
  | cons c cs ih =>
    cases y with
    | nil => simp [cmpStr] at h1
    | cons d ds =>
      cases z with
      | nil => simp [cmpStr] at h2
      | cons e es =>
        unfold cmpStr at h1 h2 ⊢
        by_cases hcd : c < d
        · by_cases hde : d < e
          · simp [lt_trans hcd hde]
          · by_cases hed : e < d
            · simp [hde, hed] at h2
            · have hde' : d = e := le_antisymm (not_lt.mp hed) (not_lt.mp hde)
              subst hde'
              simp [hcd]
        · by_cases hdc : d < c
          · simp [hcd, hdc] at h1
          · have hcd' : c = d := le_antisymm (not_lt.mp hdc) (not_lt.mp hcd)
            subst hcd'
            simp only [hcd, if_neg, lt_irrefl, if_false] at h1
            by_cases hce : c < e
            · simp [hce]
            · by_cases hec : e < c
              · simp [hce, hec] at h2
              · have hce' : c = e := le_antisymm (not_lt.mp hec) (not_lt.mp hce)
                subst hce'
                simp only [lt_irrefl, if_false] at h2 ⊢
                exact ih h1 h2

/-! ## Properties of the two comparators -/

theorem fnameLe_iff (x y : NameRecord) :
    fnameLe x y = true ↔ cmpStr x.filename y.filename ≠ Ordering.gt := by
  simp [fnameLe]

theorem fnameLe_total (x y : NameRecord) :
    fnameLe x y = true ∨ fnameLe y x = true := by
  rw [fnameLe_iff, fnameLe_iff]
  cases hxy : cmpStr x.filename y.filename with
  | lt => exact Or.inl (by simp)
  | eq => exact Or.inl (by simp)
  | gt =>
    right
    intro hc
    have hsw := cmpStr_swap x.filename y.filename
    rw [hxy, hc] at hsw
    simp [Ordering.swap] at hsw

theorem fnameLe_trans (x y z : NameRecord) (h1 : fnameLe x y = true)
    (h2 : fnameLe y z = true) : fnameLe x z = true := by
  rw [fnameLe_iff] at h1 h2 ⊢
  cases hxy : cmpStr x.filename y.filename with
  | gt => exact absurd hxy h1
  | eq => rw [cmpStr_eq hxy]; exact h2
  | lt =>
    cases hyz : cmpStr y.filename z.filename with
    | gt => exact absurd hyz h2
    | eq =>
      rw [← cmpStr_eq hyz, hxy]
      simp
    | lt =>
      rw [cmpStr_lt_trans hxy hyz]
      simp

theorem seqLe_total (x y : NameRecord) :
    seqLe x y = true ∨ seqLe y x = true := by
  simp [seqLe]
  omega

theorem seqLe_trans (x y z : NameRecord) (h1 : seqLe x y = true)
    (h2 : seqLe y z = true) : seqLe x z = true := by
  simp [seqLe] at h1 h2 ⊢
  omega

theorem fnameLe_of_eq {x y : NameRecord} (h : x.filename = y.filename) :
    fnameLe x y = true := by
  rw [fnameLe_iff, h, cmpStr_self]
  simp

/-! ## The order and stability of `preparedSort` -/

theorem pairwise_combine (l : List NameRecord)
    (h1 : l.Pairwise (fun a b => fnameLe a b = true))
    (h2 : ∀ f, (l.filter (fun r => decide (r.filename = f))).Pairwise
      (fun a b => seqVal a ≤ seqVal b)) :
    l.Pairwise bareLex := by
  induction l with
  | nil => exact List.Pairwise.nil
  | cons x xs ih =>
    rcases List.pairwise_cons.mp h1 with ⟨hx, hxs⟩
    refine List.pairwise_cons.mpr ⟨?_, ih hxs ?_⟩
    · intro b hb
      refine ⟨hx b hb, fun hfn => ?_⟩
      have hfx := h2 x.filename
      rw [List.filter_cons_of_pos (by simp)] at hfx
      rcases List.pairwise_cons.mp hfx with ⟨hseq, _⟩
      exact hseq b (List.mem_filter.mpr ⟨hb, by simp [hfn]⟩)
    · intro f
      have hf := h2 f
      by_cases hxf : x.filename = f
      · rw [List.filter_cons_of_pos (by simp [hxf])] at hf
        exact (List.pairwise_cons.mp hf).2
      · rw [List.filter_cons_of_neg (by simp [hxf])] at hf
        exact hf

theorem preparedSort_pairwise (l : List NameRecord) :
    (preparedSort l).Pairwise bareLex := by
  have h1 : (preparedSort l).Pairwise (fun a b => fnameLe a b = true) :=
    pairwise_isortS fnameLe fnameLe_total fnameLe_trans _
  refine pairwise_combine _ h1 (fun f => ?_)
  have he : (preparedSort l).filter (fun r => decide (r.filename = f)) =
      (isortS seqLe l).filter (fun r => decide (r.filename = f)) := by
    unfold preparedSort
    exact filter_isortS fnameLe _
      (fun a b ha hb =>
        fnameLe_of_eq ((of_decide_eq_true ha).trans (of_decide_eq_true hb).symm)) _
  rw [he]
  have hp : (isortS seqLe l).Pairwise (fun a b => seqLe a b = true) :=
    pairwise_isortS seqLe seqLe_total seqLe_trans l
  have hsub : ((isortS seqLe l).filter (fun r => decide (r.filename = f))).Pairwise
      (fun a b => seqLe a b = true) :=
    List.Pairwise.sublist (List.filter_sublist _) hp
  exact hsub.imp (fun h => by simpa [seqLe] using h)

theorem preparedSort_stable (l : List NameRecord) (f : Str) (n : Nat) :
    (preparedSort l).filter (keyEq f n) = l.filter (keyEq f n) := by
  unfold preparedSort
  rw [filter_isortS fnameLe (keyEq f n)
    (fun a b ha hb => by
      simp only [keyEq, Bool.and_eq_true, decide_eq_true_eq] at ha hb
      exact fnameLe_of_eq (ha.1.trans hb.1.symm)) _]
  exact filter_isortS seqLe (keyEq f n)
    (fun a b ha hb => by
      simp only [keyEq, Bool.and_eq_true, decide_eq_true_eq] at ha hb
      simp [seqLe, ha.2, hb.2]) l

/-! ## Claim C4: the sorter — amended -/

/-- C4 amended: the output of the two-pass sort is ordered with
*primary* key the bare name ascending (code-point order) and
*secondary* key the integer value of the index ascending, and the sort
is stable: records equal in both keys keep their original relative
order (their filtered subsequence is unchanged). -/
theorem claim4_sort_amended (l : List NameRecord) :
    (preparedSort l).Pairwise bareLex ∧
    ∀ f n, (preparedSort l).filter (keyEq f n) = l.filter (keyEq f n) :=
  ⟨preparedSort_pairwise l, fun f n => preparedSort_stable l f n⟩

/-! ## Claim C9: the rangeStart asymmetry -/

theorem pyInt_eq {s : Str} {n : Nat} (h : pyInt s = some n) :
    digitsToNat s = n := by
  unfold pyInt at h
  split at h
  · cases h
    rfl
  · cases h

theorem adjPairs_map_fst : ∀ (l : List α), (adjPairs l).map Prod.fst = l.dropLast
  | [] => rfl
  | [_] => rfl
  | a :: b :: t => by
    have ih := adjPairs_map_fst (b :: t)
    simp only [adjPairs, List.map_cons, ih]
    rfl

theorem dropLast_append_getLastD :
    ∀ (t : List α) (b a : α),
      (a :: b :: t).dropLast ++ [(b :: t).getLastD a] = a :: b :: t
  | [], b, a => rfl
  | c :: t, b, a => by
    have ih := dropLast_append_getLastD t c b
    simp only [List.dropLast_cons₂, List.cons_append] at ih ⊢
    rw [show (b :: c :: t).getLastD a = (c :: t).getLastD b from rfl, ih]

theorem pairsOf_map_fst (a b : NameRecord) (t : List NameRecord) :
    (pairsOf (a :: b :: t)).map Prod.fst = a :: b :: t := by
  unfold pairsOf
  rw [List.map_append, adjPairs_map_fst]
  simp only [List.map_cons, List.map_nil]
  exact dropLast_append_getLastD t b a

/-- One `comparefile` step preserves the run invariant: if a run is
active afterwards, every future record of that bare name has index at
least `start` (the below-`start` check is only consulted before a run
is (re)established; sortedness carries the bound along the run). -/
theorem comparefile_startInv {c c' : Checker} {dir : Str} {cur nxt : NameRecord}
    {s : Nat} {rest : List NameRecord} (hs : c.start = some s)
    (h : comparefile c dir cur nxt = some c')
    (hinv : c.lastfilebarename ≠ [] →
      ∀ r ∈ cur :: rest, r.filename = c.lastfilebarename → s ≤ seqVal r)
    (hsorted : ∀ r ∈ rest, cur.filename = r.filename → seqVal cur ≤ seqVal r) :
    c'.lastfilebarename ≠ [] →
      ∀ r ∈ rest, r.filename = c'.lastfilebarename → s ≤ seqVal r := by
  cases hp : pyInt cur.seqnum with
  | none => simp [comparefile, hp] at h
  | some iseq =>
    simp only [comparefile, hp] at h
    split at h
    · cases h
      intro hl r hr hrf
      exact hinv hl r (List.mem_cons_of_mem _ hr) hrf
    · rename_i hskip
      have hge : s ≤ iseq := by
        rw [hs] at hskip
        by_cases hs0 : s = 0
        · omega
        · by_contra hlt
          exact hskip (by simp [Option.getD_some, hs0]; omega)
      split at h
      · split at h
        · cases h
          intro hl
          simp [resetC] at hl
        · cases h
          intro hl r hr hrf
          simp only at hrf
          have h1 : seqVal cur ≤ seqVal r := hsorted r hr hrf.symm
          have h2 : seqVal cur = iseq := pyInt_eq hp
          omega
      · split at h
        · split at h
          · split at h
            · cases h
              intro hl
              simp [resetC] at hl
            · split at h
              · cases h
                intro hl
                simp [resetC] at hl
              · cases h
                intro hl r hr hrf
                simp only [setWidth_lastname] at hl hrf
                exact hinv hl r (List.mem_cons_of_mem _ hr) hrf
          · split at h
            · cases h
              intro hl
              simp [resetC] at hl
            · cases h
              intro hl r hr hrf
              simp only [setWidth_lastname] at hl hrf
              exact hinv hl r (List.mem_cons_of_mem _ hr) hrf
        · cases h
          intro hl
          simp [resetC] at hl

theorem compareSteps_cons (c : Checker) (dir : Str) (cur nxt : NameRecord)
    (rest : List (NameRecord × NameRecord)) :
    compareSteps c dir ((cur, nxt) :: rest) =
      (c, cur) :: (match comparefile c dir cur nxt with
        | some c1 => compareSteps c1 dir rest
        | none => []) := rfl

/-- The run invariant along the whole trace of one directory. -/
theorem compareSteps_startInv {dir : Str} {s : Nat} :
    ∀ (ps : List (NameRecord × NameRecord)) (c : Checker),
      c.start = some s →
      (ps.map Prod.fst).Pairwise
        (fun a b => a.filename = b.filename → seqVal a ≤ seqVal b) →
      (c.lastfilebarename ≠ [] → ∀ r ∈ ps.map Prod.fst,
        r.filename = c.lastfilebarename → s ≤ seqVal r) →
      ∀ q ∈ compareSteps c dir ps, q.1.lastfilebarename ≠ [] →
        q.1.lastfilebarename = q.2.filename → s ≤ seqVal q.2 := by
  intro ps
  induction ps with
  | nil =>
    intro c _ _ _ q hq
    simp [compareSteps] at hq
  | cons p rest ih =>
    obtain ⟨cur, nxt⟩ := p
    intro c hs hpw hinv q hq
    rw [compareSteps_cons] at hq
    rcases List.mem_cons.mp hq with rfl | hq2
    · intro hl hf
      exact hinv hl cur (by simp) hf.symm
    · cases hc : comparefile c dir cur nxt with
      | none =>
        rw [hc] at hq2
        simp at hq2
      | some c1 =>
        rw [hc] at hq2
        dsimp only at hq2
        have hs1 : c1.start = some s := by
          rw [(comparefile_shape hc).1, hs]
        have hcur := List.pairwise_cons.mp
          (show (cur :: rest.map Prod.fst).Pairwise
            (fun a b => a.filename = b.filename → seqVal a ≤ seqVal b) from hpw)
        exact ih c1 hs1 hcur.2
          (comparefile_startInv hs hc hinv
            (fun r hr hf => hcur.1 r hr hf)) q hq2

/-- C9: when a sorted record list is processed from a fresh instance
with a configured `rangeStart`, the below-`start` check only ever takes
effect while a new run is being established: whenever `comparefile`
handles a record while a run is active (nonempty `lastfilebarename`
equal to the record's bare name, i.e. the in-run branch of the source),
that record's integer index is at least `start`, so mid-run records
are never suppressed by the `start` filter. -/
theorem claim9_rangestart_invariant (l : List NameRecord) (dir : Str)
    (s : Nat) (e : Option Nat) (hsorted : l.Pairwise bareLex)
    (q : Checker × NameRecord)
    (hq : q ∈ compareSteps (freshChecker (some s) e) dir (pairsOf l))
    (hl : q.1.lastfilebarename ≠ []) (hf : q.1.lastfilebarename = q.2.filename)
    (n : Nat) (hn : pyInt q.2.seqnum = some n) : s ≤ n := by
  have hkey : s ≤ seqVal q.2 := by
    refine compareSteps_startInv (pairsOf l) (freshChecker (some s) e)
      rfl ?_ ?_ q hq hl hf
    · cases l with
      | nil => simp [pairsOf]
      | cons a t =>
        cases t with
        | nil => simp [pairsOf]
        | cons b t2 =>
          rw [pairsOf_map_fst]
          exact hsorted.imp (fun hab hf' => hab.2 hf')
    · intro hcon
      simp [freshChecker] at hcon
  rw [← pyInt_eq hn]
  exact hkey

/-- Witness for C9 at the in-run step of the run `a5, a6` with
`start = 2`. -/
theorem claim9_witness :
    ([nrec ['a'] ['5'], nrec ['a'] ['6']].Pairwise bareLex) ∧
    (({ start := some 2, end' := none, lastfilebarename := ['a'],
        nextseqnum := 6, seqnumwidth := 1, missing := [] },
      nrec ['a'] ['6']) ∈
      compareSteps (freshChecker (some 2) none) (("d").toList)
        (pairsOf [nrec ['a'] ['5'], nrec ['a'] ['6']])) ∧
    2 ≤ 6 :=
  ⟨by decide, by decide,
    claim9_rangestart_invariant [nrec ['a'] ['5'], nrec ['a'] ['6']]
      (("d").toList) 2 none (by decide)
      ({ start := some 2, end' := none, lastfilebarename := ['a'],
         nextseqnum := 6, seqnumwidth := 1, missing := [] },
       nrec ['a'] ['6'])
      (by decide) (by decide) (by decide) 6 (by decide)⟩

end CheckFileSeq
